import Mathlib

/-!
Shallow embedding of the asset synchronization engine of `src/asset.js`
(the `github-release-action` repository): artifact discovery from glob
descriptors, deduplication, diffing against the remote release state,
upload / delete-then-upload execution, and result aggregation.

External capabilities (filesystem glob + stat, file read, mime lookup,
remote upload request, remote delete) are modelled as explicit function
parameters.  Remote-capability invocations are recorded in an event
trace so that claims about which capabilities are invoked, and in which
order, can be stated.  Machine concurrency is not modelled: the JS code
joins every operation with `Promise.allSettled`, which returns outcomes
in input order regardless of completion order, so the outcome lists are
a faithful sequential model.
-/

namespace ReleaseAction

/-- Node's `path.basename`, modelled as the last `/`-separated component
of the path. -/
def basename (p : String) : String :=
  (p.splitOn "/").getLastD ""

/-- `JSON.stringify` applied to a plain string, as used in the error and
warning messages of `asset.js`: the string surrounded by double quotes. -/
def quoteStr (s : String) : String :=
  "\"" ++ s ++ "\""

/-- One entry of `config.assets` (an artifact descriptor): a glob
`path` pattern, an `optional` flag (defaulted to `false` by the
excluded validation layer), and optional `name` / `label` overrides. -/
structure AssetDescriptor where
  path : String
  optional : Bool := false
  name : Option String := none
  label : Option String := none
deriving Repr, DecidableEq

/-- The argument shape of `normalizeAsset` in `asset.js`: a partial
asset object whose `label` and `name` fields may be absent. -/
structure RawAsset where
  label : Option String := none
  name : Option String := none
  path : String
deriving Repr, DecidableEq

/-- A fully normalized desired artifact (`DiscoveredArtifact`). -/
structure DesiredAsset where
  label : String
  name : String
  path : String
deriving Repr, DecidableEq

/-- A remote release asset as returned by the hosting API
(`RemoteArtifact`); only the fields the engine inspects (`id` for
deletion, `name` for diffing and sorting) are carried, the remaining
normalized fields are payload it never reads. -/
structure ApiAsset where
  id : Nat
  name : String
deriving Repr, DecidableEq

/-- `normalizeAsset` from `asset.js`: `label` defaults to `""` when
absent, `name` falls back to `basename path` when absent or falsy
(the empty string is falsy in JS, so `name || basename(path)` also
replaces an empty-string override). -/
def normalizeAsset (asset : RawAsset) : DesiredAsset :=
  { label := asset.label.getD ""
    name :=
      match asset.name with
      | some n => if n = "" then basename asset.path else n
      | none => basename asset.path
    path := asset.path }

/-- The filesystem capabilities used by `findAsset`: glob expansion and
the directory test performed with `stat`. -/
structure Fs where
  glob : String → List String
  isDirectory : String → Bool

/-- The matches `findAsset` retains for a pattern: every glob match
that is not a directory, in glob order. -/
def matchFiles (fs : Fs) (pattern : String) : List String :=
  (fs.glob pattern).filter (fun p => !(fs.isDirectory p))

/-- The message of the error thrown by `findAsset` for a mandatory
descriptor whose pattern matched nothing (`MandatoryArtifactNotFound`). -/
def mandatoryNotFoundMsg (pattern : String) : String :=
  "No release assets found for mandatory asset with path glob pattern " ++
    quoteStr pattern

/-- The warning emitted by `findAssets` for each dropped duplicate. -/
def duplicateWarningMsg (name : String) : String :=
  "Release asset " ++ quoteStr name ++
    " found multiple times. Only the first instance will be used."

/-- `findAsset` from `asset.js`: expand one descriptor.  Zero
non-directory matches: empty list when optional, error when mandatory.
More than one match: every match is normalized with no overrides.
Exactly one match: the descriptor's `name` / `label` overrides are
passed to `normalizeAsset`. -/
def findAsset (fs : Fs) (asset : AssetDescriptor) :
    Except String (List DesiredAsset) :=
  let found := matchFiles fs asset.path
  if found.length < 1 then
    if asset.optional then Except.ok []
    else Except.error (mandatoryNotFoundMsg asset.path)
  else if found.length > 1 then
    Except.ok (found.map (fun path => normalizeAsset { path }))
  else
    Except.ok [normalizeAsset
      { label := asset.label, name := asset.name, path := found.headD "" }]

/-- The accumulation loop of `findAssets`: expand every descriptor in
order, concatenating results; the first expansion error aborts the
whole pass. -/
def expandAssets (fs : Fs) : List AssetDescriptor →
    Except String (List DesiredAsset)
  | [] => Except.ok []
  | a :: rest => do
    let found ← findAsset fs a
    let more ← expandAssets fs rest
    Except.ok (found ++ more)

/-- The dedup filter of `findAssets`: keep the first occurrence of each
lowercased name (`seen` is the set of lowercased names kept so far),
and emit one warning per dropped later occurrence.  Returns the kept
artifacts and the warnings, each in input order. -/
def dedupeAssets (seen : List String) :
    List DesiredAsset → List DesiredAsset × List String
  | [] => ([], [])
  | a :: rest =>
    if a.name.toLower ∈ seen then
      ((dedupeAssets seen rest).1,
        duplicateWarningMsg a.name :: (dedupeAssets seen rest).2)
    else
      (a :: (dedupeAssets (a.name.toLower :: seen) rest).1,
        (dedupeAssets (a.name.toLower :: seen) rest).2)

/-- `findAssets` from `asset.js`: expansion followed by case-insensitive
deduplication; returns the desired-artifact list and the duplicate
warnings. -/
def findAssets (fs : Fs) (assets : List AssetDescriptor) :
    Except String (List DesiredAsset × List String) :=
  (expandAssets fs assets).map (dedupeAssets [])

/-- The result of `diffAssets`. -/
structure DiffResult where
  toUpdate : List (ApiAsset × DesiredAsset)
  toUpload : List DesiredAsset
deriving Repr, DecidableEq

/-- `diffAssets` from `asset.js`: for each desired artifact, the first
existing remote artifact with exactly equal name (case-sensitive) pairs
with it in `toUpdate`; with no such match it goes to `toUpload`. -/
def diffAssets (existingAssets : List ApiAsset) :
    List DesiredAsset → DiffResult
  | [] => { toUpdate := [], toUpload := [] }
  | desired :: rest =>
    let r := diffAssets existingAssets rest
    match existingAssets.find? (fun existing => existing.name == desired.name) with
    | none => { toUpdate := r.toUpdate, toUpload := desired :: r.toUpload }
    | some existing =>
      { toUpdate := (existing, desired) :: r.toUpdate, toUpload := r.toUpload }

/-- One settled operation outcome, as produced by `Promise.allSettled`:
`fulfilled` with the normalized uploaded asset, or `rejected` with the
error. -/
inductive Outcome where
  | fulfilled (value : ApiAsset)
  | rejected (reason : String)
deriving Repr, DecidableEq

/-- The successful value of an outcome, when there is one. -/
def Outcome.value? : Outcome → Option ApiAsset
  | .fulfilled v => some v
  | .rejected _ => none

/-- Whether an outcome is a success. -/
def Outcome.isFulfilled : Outcome → Bool
  | .fulfilled _ => true
  | .rejected _ => false

/-- The record built by `analyzeResults`. -/
structure AnalyzedResults where
  isSuccess : Bool
  successCount : Nat
  assets : List ApiAsset
  failureCount : Nat
  failureReasons : List String
deriving Repr, DecidableEq

/-- `analyzeResults` from `asset.js`: fold over the settled outcomes,
collecting successful assets and failure reasons in order; `isSuccess`
starts `true` and is cleared by any rejection. -/
def analyzeResults : List Outcome → AnalyzedResults
  | [] =>
    { isSuccess := true, successCount := 0, assets := [],
      failureCount := 0, failureReasons := [] }
  | o :: rest =>
    let r := analyzeResults rest
    match o with
    | .fulfilled v =>
      { isSuccess := r.isSuccess, successCount := r.successCount + 1,
        assets := v :: r.assets, failureCount := r.failureCount,
        failureReasons := r.failureReasons }
    | .rejected e =>
      { isSuccess := false, successCount := r.successCount,
        assets := r.assets, failureCount := r.failureCount + 1,
        failureReasons := e :: r.failureReasons }

/-- The comparator `compareApiAsset` (`a.name.localeCompare(b.name)`),
modelled as the lexicographic order on names. -/
def apiAssetLe (a b : ApiAsset) : Bool :=
  a.name ≤ b.name

/-- The final `.sort(compareApiAsset)` of `modifyReleaseAssets`. -/
def sortAssets (assets : List ApiAsset) : List ApiAsset :=
  assets.mergeSort apiAssetLe

/-- The remote / filesystem capabilities used by the executor: file
read, mime lookup by path, the upload request, and asset deletion. -/
structure Caps where
  readFile : String → Except String String
  lookup : String → String
  request : (name : String) → (data : String) → (label : String) →
    (contentType : String) → Except String ApiAsset
  deleteAsset : Nat → Except String Unit

/-- A remote-capability invocation, recorded in execution order. -/
inductive Event where
  | readCall (path : String)
  | uploadCall (name : String)
  | deleteCall (id : Nat)
deriving Repr, DecidableEq

/-- `uploadAsset` from `asset.js`: read the file (a read failure
rejects the operation before any upload request), then submit the
upload request; either way the outcome is settled, never raised. -/
def uploadAsset (caps : Caps) (desired : DesiredAsset) :
    Outcome × List Event :=
  match caps.readFile desired.path with
  | .error e => (.rejected e, [.readCall desired.path])
  | .ok data =>
    match caps.request desired.name data desired.label
        (caps.lookup desired.path) with
    | .ok apiAsset =>
      (.fulfilled apiAsset, [.readCall desired.path, .uploadCall desired.name])
    | .error e =>
      (.rejected e, [.readCall desired.path, .uploadCall desired.name])

/-- `updateAsset` from `asset.js` (with `deleteAsset` inlined): delete
the existing remote asset by id first; a delete failure rejects the
whole operation without attempting the upload; on success the
operation continues exactly as `uploadAsset` of the desired artifact. -/
def updateAsset (caps : Caps) (existing : ApiAsset) (desired : DesiredAsset) :
    Outcome × List Event :=
  match caps.deleteAsset existing.id with
  | .error e => (.rejected e, [.deleteCall existing.id])
  | .ok _ =>
    let (outcome, trace) := uploadAsset caps desired
    (outcome, .deleteCall existing.id :: trace)

/-- `modifyReleaseAssets` from `asset.js`: expand and dedupe the
descriptors (an expansion error unwinds the pass before any remote
call), return `(true, [])` immediately when there is nothing to
modify, otherwise diff, run every upload and update to completion,
and aggregate: success iff both batches fully succeeded, and the
successful assets of both batches sorted by name.  The second
component is the trace of capability invocations. -/
def modifyReleaseAssets (fs : Fs) (caps : Caps)
    (existingAssets : List ApiAsset) (configAssets : List AssetDescriptor) :
    Except String (Bool × List ApiAsset) × List Event :=
  match findAssets fs configAssets with
  | .error e => (.error e, [])
  | .ok (desiredAssets, _warnings) =>
    if existingAssets.length < 1 ∧ desiredAssets.length < 1 then
      (.ok (true, []), [])
    else
      let diff := diffAssets existingAssets desiredAssets
      let uploadRuns := diff.toUpload.map (fun desired => uploadAsset caps desired)
      let updateRuns := diff.toUpdate.map
        (fun p => updateAsset caps p.1 p.2)
      let uploadResult := analyzeResults (uploadRuns.map Prod.fst)
      let updateResult := analyzeResults (updateRuns.map Prod.fst)
      (.ok (uploadResult.isSuccess && updateResult.isSuccess,
            sortAssets (uploadResult.assets ++ updateResult.assets)),
       (uploadRuns.map Prod.snd).flatten ++ (updateRuns.map Prod.snd).flatten)

end ReleaseAction

namespace ReleaseAction

/-! ### Basic facts about `analyzeResults` and `sortAssets` -/

theorem analyzeResults_isSuccess (results : List Outcome) :
    (analyzeResults results).isSuccess = results.all Outcome.isFulfilled := by
  induction results with
  | nil => rfl
  | cons o rest ih =>
    cases o <;> simp [analyzeResults, Outcome.isFulfilled, ih]

theorem analyzeResults_assets (results : List Outcome) :
    (analyzeResults results).assets = results.filterMap Outcome.value? := by
  induction results with
  | nil => rfl
  | cons o rest ih =>
    cases o <;> simp [analyzeResults, Outcome.value?, ih]

theorem sortAssets_perm (assets : List ApiAsset) :
    (sortAssets assets).Perm assets :=
  List.mergeSort_perm assets apiAssetLe

theorem apiAssetLe_trans (a b c : ApiAsset) :
    apiAssetLe a b = true → apiAssetLe b c = true → apiAssetLe a c = true := by
  simp only [apiAssetLe, decide_eq_true_eq]
  exact le_trans

theorem apiAssetLe_total (a b : ApiAsset) :
    (apiAssetLe a b || apiAssetLe b a) = true := by
  simp only [apiAssetLe, Bool.or_eq_true, decide_eq_true_eq]
  exact le_total a.name b.name

theorem sortAssets_sorted (assets : List ApiAsset) :
    (sortAssets assets).Pairwise (fun a b => apiAssetLe a b = true) :=
  List.sorted_mergeSort apiAssetLe_trans apiAssetLe_total assets

/-- Witness fixture: a filesystem on which every pattern matches nothing. -/
def fsEmpty : Fs := { glob := fun _ => [], isDirectory := fun _ => false }

/-- Witness fixture: capabilities for which every operation succeeds. -/
def capsOk : Caps :=
  { readFile := fun _ => Except.ok "data"
    lookup := fun _ => "text/plain"
    request := fun name _ _ _ => Except.ok { id := 7, name := name }
    deleteAsset := fun _ => Except.ok () }

/-- **C1.** For every pair of outcome batches (uploads and updates), the
aggregated report's success flag is true iff every outcome in both
batches is fulfilled, and the aggregated artifact list contains exactly
(as a permutation) the assets of the successful outcomes — no failed
operation's asset and nothing else ever appears in it. -/
theorem c1_aggregate_success_and_artifacts
    (uploadResults updateResults : List Outcome) :
    (((analyzeResults uploadResults).isSuccess &&
        (analyzeResults updateResults).isSuccess) = true ↔
      ∀ o ∈ uploadResults ++ updateResults, o.isFulfilled = true) ∧
    (sortAssets ((analyzeResults uploadResults).assets ++
        (analyzeResults updateResults).assets)).Perm
      ((uploadResults ++ updateResults).filterMap Outcome.value?) := by
  constructor
  · simp only [analyzeResults_isSuccess, Bool.and_eq_true, List.all_eq_true,
      List.mem_append]
    constructor
    · rintro ⟨h1, h2⟩ o ho
      cases ho with
      | inl hm => exact h1 o hm
      | inr hm => exact h2 o hm
    · intro h
      exact ⟨fun o ho => h o (Or.inl ho), fun o ho => h o (Or.inr ho)⟩
  · rw [analyzeResults_assets, analyzeResults_assets, ← List.filterMap_append]
    exact sortAssets_perm _

theorem c1_aggregate_success_and_artifacts_witness :
    (sortAssets ((analyzeResults [Outcome.fulfilled ⟨1, "b"⟩]).assets ++
        (analyzeResults [Outcome.rejected "boom"]).assets)).Perm
      (([Outcome.fulfilled ⟨1, "b"⟩] ++
        [Outcome.rejected "boom"]).filterMap Outcome.value?) :=
  (c1_aggregate_success_and_artifacts
    [Outcome.fulfilled ⟨1, "b"⟩] [Outcome.rejected "boom"]).2

/-- **C4.** Every update operation invokes the delete capability for the
existing asset's id first (it is the head of the operation's trace); if
the delete fails the whole operation is rejected with that error and
nothing else is invoked (in particular no upload); if the delete
succeeds the operation continues exactly as an upload of the desired
artifact. -/
theorem c4_update_is_delete_then_upload (caps : Caps) (existing : ApiAsset)
    (desired : DesiredAsset) :
    ((updateAsset caps existing desired).2.head? =
      some (Event.deleteCall existing.id)) ∧
    (∀ e, caps.deleteAsset existing.id = Except.error e →
      updateAsset caps existing desired =
        (Outcome.rejected e, [Event.deleteCall existing.id])) ∧
    (caps.deleteAsset existing.id = Except.ok () →
      updateAsset caps existing desired =
        ((uploadAsset caps desired).1,
          Event.deleteCall existing.id :: (uploadAsset caps desired).2)) := by
  cases h : caps.deleteAsset existing.id with
  | error e =>
    refine ⟨?_, ?_, ?_⟩
    · simp [updateAsset, h]
    · intro e' he'
      injection he' with h2
      subst h2
      simp [updateAsset, h]
    · intro hok
      simp at hok
  | ok u =>
    cases u
    refine ⟨?_, ?_, ?_⟩
    · simp [updateAsset, h]
    · intro e' he'
      simp at he'
    · intro _
      simp [updateAsset, h]

theorem c4_update_is_delete_then_upload_witness :
    updateAsset capsOk ⟨3, "a.txt"⟩ { label := "", name := "a.txt", path := "a.txt" } =
      ((uploadAsset capsOk { label := "", name := "a.txt", path := "a.txt" }).1,
        Event.deleteCall 3 ::
          (uploadAsset capsOk { label := "", name := "a.txt", path := "a.txt" }).2) :=
  (c4_update_is_delete_then_upload capsOk ⟨3, "a.txt"⟩
    { label := "", name := "a.txt", path := "a.txt" }).2.2 rfl

/-- **C9.** When the existing remote asset list is empty and expansion of
all descriptors yields an empty desired list, `modifyReleaseAssets`
returns success with an empty artifact list and an empty capability
trace: no upload or delete is ever invoked. -/
theorem c9_nothing_to_modify (fs : Fs) (caps : Caps)
    (configAssets : List AssetDescriptor) (warnings : List String)
    (h : findAssets fs configAssets = Except.ok ([], warnings)) :
    modifyReleaseAssets fs caps [] configAssets = (Except.ok (true, []), []) := by
  simp [modifyReleaseAssets, h]

theorem c9_nothing_to_modify_witness :
    modifyReleaseAssets fsEmpty capsOk [] [{ path := "*.txt", optional := true }] =
      (Except.ok (true, []), []) :=
  c9_nothing_to_modify fsEmpty capsOk [{ path := "*.txt", optional := true }] [] rfl

end ReleaseAction

namespace ReleaseAction

/-! ### Characterization of `diffAssets` -/

theorem diffAssets_toUpload_mem (existingAssets : List ApiAsset)
    (desiredAssets : List DesiredAsset) (d : DesiredAsset) :
    d ∈ (diffAssets existingAssets desiredAssets).toUpload ↔
      d ∈ desiredAssets ∧
        existingAssets.find? (fun e => e.name == d.name) = none := by
  induction desiredAssets with
  | nil => simp [diffAssets]
  | cons x rest ih =>
    simp only [diffAssets]
    cases hf : existingAssets.find? (fun e => e.name == x.name) with
    | none =>
      simp only [List.mem_cons]
      constructor
      · rintro (rfl | hmem)
        · exact ⟨Or.inl rfl, hf⟩
        · rcases ih.mp hmem with ⟨hd, hn⟩
          exact ⟨Or.inr hd, hn⟩
      · rintro ⟨rfl | hd, hn⟩
        · exact Or.inl rfl
        · exact Or.inr (ih.mpr ⟨hd, hn⟩)
    | some e =>
      simp only [List.mem_cons]
      constructor
      · intro hmem
        rcases ih.mp hmem with ⟨hd, hn⟩
        exact ⟨Or.inr hd, hn⟩
      · rintro ⟨rfl | hd, hn⟩
        · rw [hf] at hn
          cases hn
        · exact ih.mpr ⟨hd, hn⟩

theorem diffAssets_toUpdate_mem (existingAssets : List ApiAsset)
    (desiredAssets : List DesiredAsset) (e : ApiAsset) (d : DesiredAsset) :
    (e, d) ∈ (diffAssets existingAssets desiredAssets).toUpdate ↔
      d ∈ desiredAssets ∧
        existingAssets.find? (fun a => a.name == d.name) = some e := by
  induction desiredAssets with
  | nil => simp [diffAssets]
  | cons x rest ih =>
    simp only [diffAssets]
    cases hf : existingAssets.find? (fun a => a.name == x.name) with
    | none =>
      simp only [List.mem_cons]
      constructor
      · intro hmem
        rcases ih.mp hmem with ⟨hd, hn⟩
        exact ⟨Or.inr hd, hn⟩
      · rintro ⟨rfl | hd, hn⟩
        · rw [hf] at hn
          cases hn
        · exact ih.mpr ⟨hd, hn⟩
    | some e' =>
      simp only [List.mem_cons, Prod.mk.injEq]
      constructor
      · rintro (⟨rfl, rfl⟩ | hmem)
        · exact ⟨Or.inl rfl, hf⟩
        · rcases ih.mp hmem with ⟨hd, hn⟩
          exact ⟨Or.inr hd, hn⟩
      · rintro ⟨rfl | hd, hn⟩
        · rw [hf] at hn
          injection hn with hn
          exact Or.inl ⟨hn.symm, rfl⟩
        · exact Or.inr (ih.mpr ⟨hd, hn⟩)

/-- **C2.** `diffAssets` is a partition of the desired list: every
desired artifact lands in exactly one of `toUpload` / `toUpdate` —
paired in `toUpdate` with an existing artifact of exactly equal
(case-sensitive) name when one exists, in `toUpload` otherwise; the two
lists contain only desired artifacts, and every existing artifact
referenced in the result has a matching desired name. -/
theorem c2_diff_partition (existingAssets : List ApiAsset)
    (desiredAssets : List DesiredAsset) :
    (∀ d ∈ desiredAssets,
      (d ∈ (diffAssets existingAssets desiredAssets).toUpload ∧
        ∀ e ∈ existingAssets, e.name ≠ d.name) ∨
      ((∃ e ∈ existingAssets, e.name = d.name ∧
          (e, d) ∈ (diffAssets existingAssets desiredAssets).toUpdate) ∧
        d ∉ (diffAssets existingAssets desiredAssets).toUpload)) ∧
    (∀ d ∈ (diffAssets existingAssets desiredAssets).toUpload,
      d ∈ desiredAssets ∧ ∀ e ∈ existingAssets, e.name ≠ d.name) ∧
    (∀ p ∈ (diffAssets existingAssets desiredAssets).toUpdate,
      p.2 ∈ desiredAssets ∧ p.1 ∈ existingAssets ∧ p.1.name = p.2.name) := by
  refine ⟨?_, ?_, ?_⟩
  · intro d hd
    cases hf : existingAssets.find? (fun e => e.name == d.name) with
    | none =>
      left
      refine ⟨(diffAssets_toUpload_mem _ _ _).mpr ⟨hd, hf⟩, ?_⟩
      intro e he
      have := List.find?_eq_none.mp hf e he
      simpa using this
    | some e =>
      right
      constructor
      · refine ⟨e, List.mem_of_find?_eq_some hf, ?_,
          (diffAssets_toUpdate_mem _ _ _ _).mpr ⟨hd, hf⟩⟩
        have := List.find?_some hf
        simpa using this
      · intro hup
        have := ((diffAssets_toUpload_mem _ _ _).mp hup).2
        rw [hf] at this
        cases this
  · intro d hup
    rcases (diffAssets_toUpload_mem _ _ _).mp hup with ⟨hd, hn⟩
    refine ⟨hd, ?_⟩
    intro e he
    have := List.find?_eq_none.mp hn e he
    simpa using this
  · rintro ⟨e, d⟩ hmem
    rcases (diffAssets_toUpdate_mem _ _ _ _).mp hmem with ⟨hd, hf⟩
    refine ⟨hd, List.mem_of_find?_eq_some hf, ?_⟩
    have := List.find?_some hf
    simpa using this

theorem c2_diff_partition_witness :
    ((⟨1, "a.txt"⟩, ⟨"", "a.txt", "out/a.txt"⟩) :
        ApiAsset × DesiredAsset).2 ∈
        [(⟨"", "a.txt", "out/a.txt"⟩ : DesiredAsset)] ∧
      (⟨1, "a.txt"⟩ : ApiAsset) ∈ [(⟨1, "a.txt"⟩ : ApiAsset)] ∧
      (⟨1, "a.txt"⟩ : ApiAsset).name =
        (⟨"", "a.txt", "out/a.txt"⟩ : DesiredAsset).name :=
  (c2_diff_partition [⟨1, "a.txt"⟩] [⟨"", "a.txt", "out/a.txt"⟩]).2.2
    (⟨1, "a.txt"⟩, ⟨"", "a.txt", "out/a.txt"⟩) (by decide)

end ReleaseAction

namespace ReleaseAction

/-- Witness fixture: a filesystem on which every pattern matches exactly
one file. -/
def fsOne : Fs :=
  { glob := fun _ => ["dir/a.txt"], isDirectory := fun _ => false }

/-- Witness fixture: a filesystem on which every pattern matches two
files. -/
def fsTwo : Fs :=
  { glob := fun _ => ["x/a.bin", "x/b.bin"], isDirectory := fun _ => false }

/-- **C6.** A descriptor matching exactly one file honors its `name`
override (when given and non-empty, JS falsiness) and its `label`
override (`label` defaults to `""` when absent, expressed with `getD`);
with no `name` override the name is the match's base name.  A
descriptor matching more than one file ignores both overrides: every
result carries its own file's base name and an empty label. -/
theorem c6_override_scoping (fs : Fs) (asset : AssetDescriptor) :
    (∀ p n, matchFiles fs asset.path = [p] → asset.name = some n → n ≠ "" →
      findAsset fs asset =
        Except.ok [{ label := asset.label.getD "", name := n, path := p }]) ∧
    (∀ p, matchFiles fs asset.path = [p] → asset.name = none →
      findAsset fs asset =
        Except.ok
          [{ label := asset.label.getD "", name := basename p, path := p }]) ∧
    (1 < (matchFiles fs asset.path).length →
      findAsset fs asset = Except.ok ((matchFiles fs asset.path).map
        (fun p => { label := "", name := basename p, path := p }))) := by
  refine ⟨?_, ?_, ?_⟩
  · intro p n hm hn hne
    simp [findAsset, hm, normalizeAsset, hn, hne]
  · intro p hm hn
    simp [findAsset, hm, normalizeAsset, hn]
  · intro hlen
    have h1 : ¬(matchFiles fs asset.path).length < 1 := by omega
    have h2 : (matchFiles fs asset.path).length > 1 := hlen
    simp [findAsset, h1, h2, normalizeAsset]

theorem c6_override_scoping_witness :
    findAsset fsTwo { path := "*", name := some "nm", label := some "lb" } =
      Except.ok ((matchFiles fsTwo "*").map
        (fun p => { label := "", name := basename p, path := p })) :=
  (c6_override_scoping fsTwo
    { path := "*", name := some "nm", label := some "lb" }).2.2 (by decide)

/-- **C10.** For a single-match descriptor whose `name` override is
present but equal to the empty string, normalization treats the
override as absent: the resulting artifact's name is the matched file's
base name (the `name || basename(path)` fallback applies to any falsy
name, not only a missing one). -/
theorem c10_empty_name_override_falls_back (fs : Fs) (asset : AssetDescriptor)
    (p : String) (hm : matchFiles fs asset.path = [p])
    (hn : asset.name = some "") :
    findAsset fs asset =
      Except.ok
        [{ label := asset.label.getD "", name := basename p, path := p }] := by
  simp [findAsset, hm, normalizeAsset, hn]

theorem c10_empty_name_override_falls_back_witness :
    findAsset fsOne { path := "p", name := some "" } =
      Except.ok
        [{ label := (none : Option String).getD "",
           name := basename "dir/a.txt", path := "dir/a.txt" }] :=
  c10_empty_name_override_falls_back fsOne { path := "p", name := some "" }
    "dir/a.txt" rfl rfl

end ReleaseAction

namespace ReleaseAction

/-! ### Characterization of the dedup filter of `findAssets` -/

theorem dedupeAssets_sublist (seen : List String) (found : List DesiredAsset) :
    (dedupeAssets seen found).1.Sublist found := by
  induction found generalizing seen with
  | nil => simp [dedupeAssets]
  | cons a rest ih =>
    simp only [dedupeAssets]
    by_cases h : a.name.toLower ∈ seen
    · simpa [h] using (ih seen).cons a
    · simpa [h] using (ih (a.name.toLower :: seen)).cons₂ a

theorem dedupeAssets_kept_notin_seen (seen : List String)
    (found : List DesiredAsset) :
    ∀ b ∈ (dedupeAssets seen found).1, b.name.toLower ∉ seen := by
  induction found generalizing seen with
  | nil => simp [dedupeAssets]
  | cons a rest ih =>
    intro b hb
    simp only [dedupeAssets] at hb
    by_cases h : a.name.toLower ∈ seen
    · rw [if_pos h] at hb
      exact ih seen b hb
    · rw [if_neg h] at hb
      rcases List.mem_cons.mp hb with rfl | hb'
      · exact h
      · intro hs
        exact ih (a.name.toLower :: seen) b hb' (List.mem_cons_of_mem _ hs)

theorem dedupeAssets_nodup (seen : List String) (found : List DesiredAsset) :
    ((dedupeAssets seen found).1.map (fun a => a.name.toLower)).Nodup := by
  induction found generalizing seen with
  | nil => simp [dedupeAssets]
  | cons a rest ih =>
    simp only [dedupeAssets]
    by_cases h : a.name.toLower ∈ seen
    · simpa [h] using ih seen
    · rw [if_neg h]
      simp only [List.map_cons, List.nodup_cons]
      refine ⟨?_, ih (a.name.toLower :: seen)⟩
      intro hmem
      rcases List.mem_map.mp hmem with ⟨b, hb, he⟩
      have := dedupeAssets_kept_notin_seen (a.name.toLower :: seen) rest b hb
      exact this (he ▸ List.mem_cons_self _ _)

theorem dedupeAssets_cover (seen : List String) (found : List DesiredAsset) :
    ∀ a ∈ found, a.name.toLower ∈ seen ∨
      ∃ b ∈ (dedupeAssets seen found).1,
        b.name.toLower = a.name.toLower := by
  induction found generalizing seen with
  | nil => simp
  | cons x rest ih =>
    intro a ha
    simp only [dedupeAssets]
    by_cases h : x.name.toLower ∈ seen
    · rw [if_pos h]
      rcases List.mem_cons.mp ha with rfl | ha'
      · exact Or.inl h
      · exact ih seen a ha'
    · rw [if_neg h]
      rcases List.mem_cons.mp ha with rfl | ha'
      · exact Or.inr ⟨a, List.mem_cons_self _ _, rfl⟩
      · rcases ih (x.name.toLower :: seen) a ha' with hs | ⟨b, hb, he⟩
        · rcases List.mem_cons.mp hs with he' | hs'
          · exact Or.inr ⟨x, List.mem_cons_self _ _, he'.symm⟩
          · exact Or.inl hs'
        · exact Or.inr ⟨b, List.mem_cons_of_mem _ hb, he⟩

theorem dedupeAssets_first (seen : List String) (found : List DesiredAsset) :
    ∀ b ∈ (dedupeAssets seen found).1,
      found.find? (fun a => a.name.toLower == b.name.toLower) = some b := by
  induction found generalizing seen with
  | nil => simp [dedupeAssets]
  | cons x rest ih =>
    intro b hb
    simp only [dedupeAssets] at hb
    by_cases h : x.name.toLower ∈ seen
    · rw [if_pos h] at hb
      have hbs : b.name.toLower ∉ seen :=
        dedupeAssets_kept_notin_seen seen rest b hb
      have hne : (x.name.toLower == b.name.toLower) = false := by
        simp only [beq_eq_false_iff_ne, ne_eq]
        intro he
        exact hbs (he ▸ h)
      rw [List.find?_cons_of_neg _ (by simp [hne]), ih seen b hb]
    · rw [if_neg h] at hb
      rcases List.mem_cons.mp hb with rfl | hb'
      · rw [List.find?_cons_of_pos _ (by simp)]
      · have hbs : b.name.toLower ∉ x.name.toLower :: seen :=
          dedupeAssets_kept_notin_seen (x.name.toLower :: seen) rest b hb'
        have hne : (x.name.toLower == b.name.toLower) = false := by
          simp only [beq_eq_false_iff_ne, ne_eq]
          intro he
          exact hbs (he ▸ List.mem_cons_self _ _)
        rw [List.find?_cons_of_neg _ (by simp [hne]),
          ih (x.name.toLower :: seen) b hb']

theorem dedupeAssets_warnings (seen : List String) (found : List DesiredAsset) :
    ∃ dropped : List DesiredAsset, dropped.Sublist found ∧
      (dedupeAssets seen found).2 =
        dropped.map (fun a => duplicateWarningMsg a.name) ∧
      found.Perm ((dedupeAssets seen found).1 ++ dropped) := by
  induction found generalizing seen with
  | nil => exact ⟨[], by simp [dedupeAssets]⟩
  | cons x rest ih =>
    simp only [dedupeAssets]
    by_cases h : x.name.toLower ∈ seen
    · rw [if_pos h]
      obtain ⟨dropped, hsub, hw, hp⟩ := ih seen
      refine ⟨x :: dropped, hsub.cons₂ x, by simp [hw], ?_⟩
      have h1 : (x :: rest).Perm
          (x :: ((dedupeAssets seen rest).1 ++ dropped)) := hp.cons x
      have h2 : (x :: ((dedupeAssets seen rest).1 ++ dropped)).Perm
          ((dedupeAssets seen rest).1 ++ x :: dropped) :=
        List.perm_middle.symm
      exact h1.trans h2
    · rw [if_neg h]
      obtain ⟨dropped, hsub, hw, hp⟩ := ih (x.name.toLower :: seen)
      exact ⟨dropped, hsub.cons x, hw, by simpa using hp.cons x⟩

theorem dedupeAssets_of_nodup (seen : List String) (found : List DesiredAsset)
    (hs : ∀ a ∈ found, a.name.toLower ∉ seen)
    (hn : (found.map (fun a => a.name.toLower)).Nodup) :
    dedupeAssets seen found = (found, []) := by
  induction found generalizing seen with
  | nil => rfl
  | cons x rest ih =>
    have hx : x.name.toLower ∉ seen := hs x (List.mem_cons_self _ _)
    simp only [dedupeAssets, if_neg hx]
    simp only [List.map_cons, List.nodup_cons] at hn
    have hrest : dedupeAssets (x.name.toLower :: seen) rest = (rest, []) := by
      refine ih _ ?_ hn.2
      intro a ha
      intro hmem
      rcases List.mem_cons.mp hmem with he | hs'
      · exact hn.1 (he ▸ List.mem_map_of_mem _ ha)
      · exact hs a (List.mem_cons_of_mem _ ha) hs'
    simp [hrest]

/-- **C7.** The dedup filter of `findAssets` keeps exactly the first
occurrence of each case-insensitive name: the kept list is a sublist of
the input (relative order of first occurrences preserved), its
lowercased names are pairwise distinct, every input name is represented
by a kept artifact, each kept artifact is the first input artifact with
its case-insensitive name, and the warnings are exactly one message
naming the artifact for each dropped occurrence. -/
theorem c7_dedupe_first_occurrences (found : List DesiredAsset) :
    ((dedupeAssets [] found).1.Sublist found) ∧
    (((dedupeAssets [] found).1.map (fun a => a.name.toLower)).Nodup) ∧
    (∀ a ∈ found, ∃ b ∈ (dedupeAssets [] found).1,
      b.name.toLower = a.name.toLower) ∧
    (∀ b ∈ (dedupeAssets [] found).1,
      found.find? (fun a => a.name.toLower == b.name.toLower) = some b) ∧
    (∃ dropped : List DesiredAsset, dropped.Sublist found ∧
      (dedupeAssets [] found).2 =
        dropped.map (fun a => duplicateWarningMsg a.name) ∧
      found.Perm ((dedupeAssets [] found).1 ++ dropped)) := by
  refine ⟨dedupeAssets_sublist [] found, dedupeAssets_nodup [] found, ?_,
    dedupeAssets_first [] found, dedupeAssets_warnings [] found⟩
  intro a ha
  rcases dedupeAssets_cover [] found a ha with hs | h
  · simp at hs
  · exact h

theorem c7_dedupe_first_occurrences_witness :
    ([⟨"", "A.txt", "p1"⟩, ⟨"", "a.TXT", "p2"⟩] : List DesiredAsset).find?
        (fun a => a.name.toLower ==
          (⟨"", "A.txt", "p1"⟩ : DesiredAsset).name.toLower) =
      some ⟨"", "A.txt", "p1"⟩ :=
  (c7_dedupe_first_occurrences
      [⟨"", "A.txt", "p1"⟩, ⟨"", "a.TXT", "p2"⟩]).2.2.2.1
    ⟨"", "A.txt", "p1"⟩ (by decide)

/-- **C8.** Deduplication is idempotent — running the dedup filter on
its own output returns it unchanged with no further warnings — and
duplicates differing only in letter case collapse to the first
occurrence: every input artifact is represented in the output by the
first input artifact with its case-insensitive name. -/
theorem c8_dedupe_idempotent (found : List DesiredAsset) :
    (dedupeAssets [] ((dedupeAssets [] found).1) =
      ((dedupeAssets [] found).1, [])) ∧
    (∀ a ∈ found, ∃ b ∈ (dedupeAssets [] found).1,
      found.find? (fun c => c.name.toLower == a.name.toLower) = some b ∧
      b.name.toLower = a.name.toLower) := by
  constructor
  · exact dedupeAssets_of_nodup [] _ (by simp) (dedupeAssets_nodup [] found)
  · intro a ha
    rcases dedupeAssets_cover [] found a ha with hs | ⟨b, hb, he⟩
    · simp at hs
    · refine ⟨b, hb, ?_, he⟩
      have hf := dedupeAssets_first [] found b hb
      have hpe : (fun c : DesiredAsset => c.name.toLower == a.name.toLower) =
          (fun c => c.name.toLower == b.name.toLower) := by
        funext c
        rw [he]
      rw [hpe]
      exact hf

theorem c8_dedupe_idempotent_witness :
    dedupeAssets []
        ((dedupeAssets []
          ([⟨"", "A.txt", "p1"⟩, ⟨"", "a.TXT", "p2"⟩] : List DesiredAsset)).1) =
      ((dedupeAssets []
        ([⟨"", "A.txt", "p1"⟩, ⟨"", "a.TXT", "p2"⟩] : List DesiredAsset)).1,
        []) :=
  (c8_dedupe_idempotent [⟨"", "A.txt", "p1"⟩, ⟨"", "a.TXT", "p2"⟩]).1

end ReleaseAction

namespace ReleaseAction

/-! ### Expansion failure propagation -/

theorem findAsset_optional_empty (fs : Fs) (asset : AssetDescriptor)
    (hm : matchFiles fs asset.path = []) (ho : asset.optional = true) :
    findAsset fs asset = Except.ok [] := by
  simp [findAsset, hm, ho]

theorem findAsset_error_elim (fs : Fs) (asset : AssetDescriptor) (e : String)
    (h : findAsset fs asset = Except.error e) :
    e = mandatoryNotFoundMsg asset.path ∧ matchFiles fs asset.path = [] ∧
      asset.optional = false := by
  by_cases h1 : (matchFiles fs asset.path).length < 1
  · have hm : matchFiles fs asset.path = [] :=
      List.eq_nil_of_length_eq_zero (by omega)
    by_cases h2 : asset.optional = true
    · simp [findAsset, hm, h2] at h
    · have ho : asset.optional = false := by
        revert h2
        cases asset.optional <;> simp
      simp only [findAsset, hm, ho] at h
      simp at h
      exact ⟨h.symm, hm, ho⟩
  · by_cases h2 : (matchFiles fs asset.path).length > 1
    · simp [findAsset, h1, h2] at h
    · simp [findAsset, h1, h2] at h

theorem expandAssets_error_mandatory (fs : Fs)
    (configAssets : List AssetDescriptor)
    (h : ∃ a ∈ configAssets, matchFiles fs a.path = [] ∧ a.optional = false) :
    ∃ p, expandAssets fs configAssets =
        Except.error (mandatoryNotFoundMsg p) ∧
      ∃ a ∈ configAssets, a.path = p ∧ matchFiles fs a.path = [] ∧
        a.optional = false := by
  induction configAssets with
  | nil => simp at h
  | cons a rest ih =>
    cases hfa : findAsset fs a with
    | error e =>
      obtain ⟨he, hm, ho⟩ := findAsset_error_elim fs a e hfa
      refine ⟨a.path, ?_, a, List.mem_cons_self _ _, rfl, hm, ho⟩
      have hred : expandAssets fs (a :: rest) = Except.error e := by
        simp [expandAssets, hfa]
        rfl
      rw [hred, he]
    | ok r1 =>
      have hrest : ∃ a0 ∈ rest, matchFiles fs a0.path = [] ∧
          a0.optional = false := by
        rcases h with ⟨a0, ha0, hm0, ho0⟩
        rcases List.mem_cons.mp ha0 with rfl | ha0'
        · simp [findAsset, hm0, ho0] at hfa
        · exact ⟨a0, ha0', hm0, ho0⟩
      obtain ⟨p, herr, a0, ha0, hp, hm0, ho0⟩ := ih hrest
      refine ⟨p, ?_, a0, List.mem_cons_of_mem _ ha0, hp, hm0, ho0⟩
      simp [expandAssets, hfa, herr]
      rfl

theorem expandAssets_ok_of_optional (fs : Fs)
    (configAssets : List AssetDescriptor)
    (h : ∀ a ∈ configAssets, matchFiles fs a.path = [] → a.optional = true) :
    ∃ r, expandAssets fs configAssets = Except.ok r := by
  induction configAssets with
  | nil => exact ⟨[], rfl⟩
  | cons a rest ih =>
    obtain ⟨r2, hr2⟩ := ih (fun b hb hm => h b (List.mem_cons_of_mem _ hb) hm)
    obtain ⟨r1, hr1⟩ : ∃ r1, findAsset fs a = Except.ok r1 := by
      by_cases hm : matchFiles fs a.path = []
      · exact ⟨[],
          findAsset_optional_empty fs a hm (h a (List.mem_cons_self _ _) hm)⟩
      · have h1 : ¬(matchFiles fs a.path).length < 1 := by
          have := List.length_pos.mpr hm
          omega
        by_cases h2 : (matchFiles fs a.path).length > 1
        · exact ⟨(matchFiles fs a.path).map (fun path => normalizeAsset { path }),
            by simp [findAsset, h1, h2]⟩
        · exact ⟨[normalizeAsset
            { label := a.label, name := a.name,
              path := (matchFiles fs a.path).headD "" }],
            by simp [findAsset, h1, h2]⟩
    exact ⟨r1 ++ r2, by simp [expandAssets, hr1, hr2]; rfl⟩

/-- **C3.** A mandatory descriptor whose pattern matches zero
non-directory files fails the whole synchronization pass with the
`MandatoryArtifactNotFound` error before any remote operation (the
capability trace is empty — no upload or delete is invoked); an
optional descriptor with zero matches expands to the empty list, and
when every zero-match descriptor is optional the expansion pass
succeeds. -/
theorem c3_mandatory_vs_optional (fs : Fs) (caps : Caps)
    (existingAssets : List ApiAsset) (configAssets : List AssetDescriptor) :
    ((∃ a ∈ configAssets, matchFiles fs a.path = [] ∧ a.optional = false) →
      ∃ p, modifyReleaseAssets fs caps existingAssets configAssets =
          (Except.error (mandatoryNotFoundMsg p), []) ∧
        ∃ a ∈ configAssets, a.path = p ∧ matchFiles fs a.path = [] ∧
          a.optional = false) ∧
    (∀ a : AssetDescriptor, matchFiles fs a.path = [] → a.optional = true →
      findAsset fs a = Except.ok []) ∧
    ((∀ a ∈ configAssets, matchFiles fs a.path = [] → a.optional = true) →
      ∃ r, findAssets fs configAssets = Except.ok r) := by
  refine ⟨?_, fun a => findAsset_optional_empty fs a, ?_⟩
  · intro h
    obtain ⟨p, herr, hwit⟩ := expandAssets_error_mandatory fs configAssets h
    refine ⟨p, ?_, hwit⟩
    simp [modifyReleaseAssets, findAssets, herr]
    rfl
  · intro h
    obtain ⟨r, hr⟩ := expandAssets_ok_of_optional fs configAssets h
    exact ⟨dedupeAssets [] r, by simp [findAssets, hr]; rfl⟩

theorem c3_mandatory_vs_optional_witness :
    findAsset fsEmpty { path := "x", optional := true } = Except.ok [] :=
  (c3_mandatory_vs_optional fsEmpty capsOk [] []).2.1
    { path := "x", optional := true } rfl rfl

end ReleaseAction

namespace ReleaseAction

/-! ### Determinism of the aggregated ordering -/

theorem list_eq_of_perm_map {α β : Type} (f : α → β) :
    ∀ (l1 l2 : List α), l1.Perm l2 → l1.map f = l2.map f →
      (l1.map f).Nodup → l1 = l2 := by
  intro l1
  induction l1 with
  | nil =>
    intro l2 hp _ _
    exact (hp.nil_eq).symm ▸ rfl
  | cons a t1 ih =>
    intro l2 hp hm hn
    cases l2 with
    | nil => exact absurd hp.symm.nil_eq (by simp)
    | cons b t2 =>
      simp only [List.map_cons, List.cons.injEq] at hm
      obtain ⟨hfab, hmt⟩ := hm
      simp only [List.map_cons, List.nodup_cons] at hn
      have hab : a = b := by
        by_contra hne
        have ha2 : a ∈ b :: t2 := hp.mem_iff.mp (List.mem_cons_self a t1)
        have ha2' : a ∈ t2 := by
          rcases List.mem_cons.mp ha2 with rfl | h'
          · exact absurd rfl hne
          · exact h'
        have hfm : f a ∈ t2.map f := List.mem_map_of_mem f ha2'
        rw [← hmt] at hfm
        exact hn.1 hfm
      subst hab
      have hpt : t1.Perm t2 := hp.cons_inv
      rw [ih t2 hpt hmt hn.2]

/-- **C5.** The aggregated artifact list is sorted by name under the
comparator, and it is deterministic in the set of successful outcomes:
whenever two pairs of batches produce the same successful assets up to
permutation (any completion order of the concurrent operations), the
sorted name sequences are identical, and when the successful names are
pairwise distinct the sorted artifact lists themselves are identical. -/
theorem c5_deterministic_ordering (us1 vs1 us2 vs2 : List Outcome)
    (hperm : ((us1 ++ vs1).filterMap Outcome.value?).Perm
      ((us2 ++ vs2).filterMap Outcome.value?)) :
    ((sortAssets ((analyzeResults us1).assets ++
        (analyzeResults vs1).assets)).Pairwise
      (fun a b => apiAssetLe a b = true)) ∧
    ((sortAssets ((analyzeResults us1).assets ++
        (analyzeResults vs1).assets)).map ApiAsset.name =
      (sortAssets ((analyzeResults us2).assets ++
        (analyzeResults vs2).assets)).map ApiAsset.name) ∧
    ((((us1 ++ vs1).filterMap Outcome.value?).map ApiAsset.name).Nodup →
      sortAssets ((analyzeResults us1).assets ++ (analyzeResults vs1).assets) =
        sortAssets ((analyzeResults us2).assets ++
          (analyzeResults vs2).assets)) := by
  have hA1 : (analyzeResults us1).assets ++ (analyzeResults vs1).assets =
      (us1 ++ vs1).filterMap Outcome.value? := by
    rw [analyzeResults_assets, analyzeResults_assets, List.filterMap_append]
  have hA2 : (analyzeResults us2).assets ++ (analyzeResults vs2).assets =
      (us2 ++ vs2).filterMap Outcome.value? := by
    rw [analyzeResults_assets, analyzeResults_assets, List.filterMap_append]
  have hp1 : (sortAssets ((analyzeResults us1).assets ++
      (analyzeResults vs1).assets)).Perm
      ((us1 ++ vs1).filterMap Outcome.value?) := by
    rw [hA1]
    exact sortAssets_perm _
  have hp2 : (sortAssets ((analyzeResults us2).assets ++
      (analyzeResults vs2).assets)).Perm
      ((us2 ++ vs2).filterMap Outcome.value?) := by
    rw [hA2]
    exact sortAssets_perm _
  have hp12 : (sortAssets ((analyzeResults us1).assets ++
      (analyzeResults vs1).assets)).Perm
      (sortAssets ((analyzeResults us2).assets ++
        (analyzeResults vs2).assets)) :=
    hp1.trans (hperm.trans hp2.symm)
  have hle : ∀ a b : ApiAsset, apiAssetLe a b = true → a.name ≤ b.name := by
    intro a b hab
    simpa [apiAssetLe] using hab
  have hns1 : ((sortAssets ((analyzeResults us1).assets ++
      (analyzeResults vs1).assets)).map ApiAsset.name).Pairwise (· ≤ ·) :=
    (sortAssets_sorted _).map ApiAsset.name hle
  have hns2 : ((sortAssets ((analyzeResults us2).assets ++
      (analyzeResults vs2).assets)).map ApiAsset.name).Pairwise (· ≤ ·) :=
    (sortAssets_sorted _).map ApiAsset.name hle
  have hneq : (sortAssets ((analyzeResults us1).assets ++
      (analyzeResults vs1).assets)).map ApiAsset.name =
      (sortAssets ((analyzeResults us2).assets ++
        (analyzeResults vs2).assets)).map ApiAsset.name :=
    List.eq_of_perm_of_sorted (hp12.map ApiAsset.name) hns1 hns2
  refine ⟨sortAssets_sorted _, hneq, ?_⟩
  intro hnd
  have hnd1 : ((sortAssets ((analyzeResults us1).assets ++
      (analyzeResults vs1).assets)).map ApiAsset.name).Nodup :=
    ((hp1.map ApiAsset.name).symm).nodup hnd
  exact list_eq_of_perm_map ApiAsset.name _ _ hp12 hneq hnd1

theorem c5_deterministic_ordering_witness :
    sortAssets ((analyzeResults [Outcome.fulfilled ⟨1, "b"⟩]).assets ++
        (analyzeResults [Outcome.fulfilled ⟨2, "a"⟩]).assets) =
      sortAssets ((analyzeResults [Outcome.fulfilled ⟨2, "a"⟩]).assets ++
        (analyzeResults [Outcome.fulfilled ⟨1, "b"⟩]).assets) :=
  (c5_deterministic_ordering [Outcome.fulfilled ⟨1, "b"⟩]
      [Outcome.fulfilled ⟨2, "a"⟩] [Outcome.fulfilled ⟨2, "a"⟩]
      [Outcome.fulfilled ⟨1, "b"⟩] (by decide)).2.2 (by decide)

end ReleaseAction
